import Mathlib

/-!
Verification of the shell-quote crate: byte classifier, Sh quoter, Bash
quoter, the adapter layer of `src/lib.rs`, and a model of the shell
grammar used to state the round-trip contract.

Bytes are modelled as `Nat` values; a byte slice is a `List Nat` whose
elements are below 256 where that matters.
-/

namespace ShellQuote

/-- Byte classifier, bare-safe class.  Modelled from the spec: the modules
`ascii`/`sh`/`bash` named in `src/lib.rs` are not in the sources, so the
classifier follows the words of section 3: letters, digits, and the fixed
punctuation set given there. -/
def isBareSafe (b : Nat) : Bool :=
  decide ((0x41 ≤ b ∧ b ≤ 0x5a) ∨ (0x61 ≤ b ∧ b ≤ 0x7a) ∨ (0x30 ≤ b ∧ b ≤ 0x39) ∨
    b = 0x2d ∨ b = 0x5f ∨ b = 0x2e ∨ b = 0x2f ∨ b = 0x2c ∨ b = 0x3a ∨
    b = 0x40 ∨ b = 0x25 ∨ b = 0x2b ∨ b = 0x3d)

/-- Byte classifier, must/prefer-escape class.  Modelled from the spec:
control bytes, the non-printable DEL byte, and every byte at or above
0x80 require (or prefer) the escape-quoting construct of the extended
dialect. -/
def mustEscape (b : Nat) : Bool :=
  decide (b < 0x20 ∨ b = 0x7f ∨ 0x80 ≤ b)

/-- Sh quoter, emission for one byte inside the single-quote group.
Modelled from the spec: the quote-breaking byte closes the group, emits a
backslash-escaped quote, and reopens; every other byte is verbatim. -/
def shEscapeByte (c : Nat) : List Nat :=
  if c = 0x27 then [0x27, 0x5c, 0x27, 0x27] else [c]

/-- One forward scan appending each byte's emission to the output buffer. -/
def shEscapeInto : List Nat → List Nat → List Nat
  | [], out => out
  | c :: rest, out => shEscapeInto rest (out ++ shEscapeByte c)

/-- Sh quoter, append form (`quote_into`).  Modelled from the spec,
section 4.2: bare-safe fast path, otherwise wrap in single quotes and
scan once; the empty slice yields the empty single-quote pair. -/
def shQuoteInto (s out : List Nat) : List Nat :=
  if s ≠ [] ∧ s.all isBareSafe then out ++ s
  else shEscapeInto s (out ++ [0x27]) ++ [0x27]

/-- Sh quoter, fresh-output form: append to an initially empty buffer. -/
def shQuote (s : List Nat) : List Nat := shQuoteInto s []

/-- Bash escape-quoting mnemonic table: the escape letter for the bytes
that have a two-character backslash-mnemonic form.  Modelled from the
spec, section 4.3. -/
def bashMnemonic (c : Nat) : Option Nat :=
  if c = 0x07 then some 0x61
  else if c = 0x08 then some 0x62
  else if c = 0x09 then some 0x74
  else if c = 0x0a then some 0x6e
  else if c = 0x0b then some 0x76
  else if c = 0x0c then some 0x66
  else if c = 0x0d then some 0x72
  else if c = 0x5c then some 0x5c
  else if c = 0x27 then some 0x27
  else none

/-- Upper-case hexadecimal digit character for a value below 16. -/
def hexDigit (n : Nat) : Nat :=
  if n < 10 then 0x30 + n else 0x41 + (n - 10)

/-- Bash quoter, emission for one byte inside the escape-quote construct.
Modelled from the spec, section 4.3: mnemonic bytes get their
backslash-mnemonic escape, printable bytes are verbatim, every other
byte becomes a fixed-width hexadecimal escape. -/
def bashEscapeByte (c : Nat) : List Nat :=
  match bashMnemonic c with
  | some m => [0x5c, m]
  | none =>
    if 0x20 ≤ c ∧ c ≤ 0x7e then [c]
    else [0x5c, 0x78, hexDigit (c / 16), hexDigit (c % 16)]

/-- One forward scan of the escape-quote body. -/
def bashEscapeInto : List Nat → List Nat → List Nat
  | [], out => out
  | c :: rest, out => bashEscapeInto rest (out ++ bashEscapeByte c)

/-- Bash quoter, append form (`quote_into`).  Modelled from the spec,
section 4.3: bare-safe fast path; single-quote strategy when no byte is
in the must/prefer-escape class; escape quoting (the `$!...!` construct
written with quotes) otherwise; the empty slice yields the empty
single-quote pair. -/
def bashQuoteInto (s out : List Nat) : List Nat :=
  if s ≠ [] ∧ s.all isBareSafe then out ++ s
  else if s.any mustEscape then bashEscapeInto s (out ++ [0x24, 0x27]) ++ [0x27]
  else shEscapeInto s (out ++ [0x27]) ++ [0x27]

/-- Bash quoter, fresh-output form: append to an initially empty buffer. -/
def bashQuote (s : List Nat) : List Nat := bashQuoteInto s []

/-- Bytes that the grammar model refuses outside every quoting construct:
whitespace would split the word, the listed operator and expansion bytes
would start a construct that is not part of a literal word.  Modelled
from the spec: no shell parser is in the sources, so tokenization and
quote expansion follow the grammar described in sections 3, 4.2 and 4.3. -/
def shMeta (b : Nat) : Bool :=
  decide (b = 0x00 ∨ b = 0x09 ∨ b = 0x0a ∨ b = 0x0d ∨ b = 0x20 ∨
    b = 0x22 ∨ b = 0x24 ∨ b = 0x26 ∨ b = 0x28 ∨ b = 0x29 ∨ b = 0x3b ∨
    b = 0x3c ∨ b = 0x3e ∨ b = 0x60 ∨ b = 0x7c)

/-- Parser mode of the POSIX-compatible grammar model: outside any quoting
construct, right after a backslash outside quotes, or inside a
single-quote group. -/
inductive ShMode
  | top
  | topEsc
  | single

/-- Tokenizing and quote-expanding a whole input as a single word under
the POSIX-compatible grammar.  Modelled from the spec: single quotes
preserve every byte except the quote character itself; a backslash
outside quotes escapes the next byte; a metacharacter outside quotes
means the input is not one literal word, so expansion fails. -/
def shExpand : ShMode → List Nat → Option (List Nat)
  | .top, [] => some []
  | .top, c :: r =>
    if c = 0x27 then shExpand .single r
    else if c = 0x5c then shExpand .topEsc r
    else if shMeta c then none
    else (shExpand .top r).map (fun t => c :: t)
  | .topEsc, [] => none
  | .topEsc, d :: r => (shExpand .top r).map (fun t => d :: t)
  | .single, [] => none
  | .single, c :: r =>
    if c = 0x27 then shExpand .top r
    else (shExpand .single r).map (fun t => c :: t)
  termination_by structural _ l => l

/-- Is the byte a hexadecimal digit character. -/
def isHexDigitByte (b : Nat) : Bool :=
  decide ((0x30 ≤ b ∧ b ≤ 0x39) ∨ (0x41 ≤ b ∧ b ≤ 0x46) ∨ (0x61 ≤ b ∧ b ≤ 0x66))

/-- Value of a hexadecimal digit character. -/
def hexVal (b : Nat) : Nat :=
  if b ≤ 0x39 then b - 0x30 else if b ≤ 0x46 then b - 0x37 else b - 0x57

/-- Byte denoted by an escape letter inside the escape-quote construct:
the inverse of the mnemonic table. -/
def bashUnMnemonic (d : Nat) : Option Nat :=
  if d = 0x61 then some 0x07
  else if d = 0x62 then some 0x08
  else if d = 0x74 then some 0x09
  else if d = 0x6e then some 0x0a
  else if d = 0x76 then some 0x0b
  else if d = 0x66 then some 0x0c
  else if d = 0x72 then some 0x0d
  else if d = 0x5c then some 0x5c
  else if d = 0x27 then some 0x27
  else none

/-- Parser mode of the extended-dialect grammar model: outside quoting,
right after a backslash outside quotes, right after a dollar sign
outside quotes, inside a single-quote group, inside the escape-quote
construct, right after a backslash there, and inside a hexadecimal
escape expecting its first or second digit. -/
inductive BashMode
  | top
  | topEsc
  | dollar
  | single
  | ansi
  | ansiEsc
  | ansiHex1
  | ansiHex2 (hi : Nat)

/-- Tokenizing and quote-expanding a whole input as a single word under
the extended (Bash-style) grammar.  Modelled from the spec: everything
the POSIX model does, plus the escape-quote construct opened by the
dollar-quote prefix, in which backslash mnemonics and two-digit
hexadecimal escapes denote arbitrary bytes and a quote closes the
construct. -/
def bashExpand : BashMode → List Nat → Option (List Nat)
  | .top, [] => some []
  | .top, c :: r =>
    if c = 0x27 then bashExpand .single r
    else if c = 0x24 then bashExpand .dollar r
    else if c = 0x5c then bashExpand .topEsc r
    else if shMeta c then none
    else (bashExpand .top r).map (fun t => c :: t)
  | .topEsc, [] => none
  | .topEsc, d :: r => (bashExpand .top r).map (fun t => d :: t)
  | .dollar, [] => none
  | .dollar, d :: r => if d = 0x27 then bashExpand .ansi r else none
  | .single, [] => none
  | .single, c :: r =>
    if c = 0x27 then bashExpand .top r
    else (bashExpand .single r).map (fun t => c :: t)
  | .ansi, [] => none
  | .ansi, c :: r =>
    if c = 0x27 then bashExpand .top r
    else if c = 0x5c then bashExpand .ansiEsc r
    else (bashExpand .ansi r).map (fun t => c :: t)
  | .ansiEsc, [] => none
  | .ansiEsc, d :: r =>
    if d = 0x78 then bashExpand .ansiHex1 r
    else
      match bashUnMnemonic d with
      | some b => (bashExpand .ansi r).map (fun t => b :: t)
      | none => none
  | .ansiHex1, [] => none
  | .ansiHex1, h1 :: r =>
    if isHexDigitByte h1 then bashExpand (.ansiHex2 (hexVal h1)) r else none
  | .ansiHex2 _, [] => none
  | .ansiHex2 hi, h2 :: r =>
    if isHexDigitByte h2 then
      (bashExpand .ansi r).map (fun t => (16 * hi + hexVal h2) :: t)
    else none
  termination_by structural _ l => l

/-- The sealed set of quoters: `src/lib.rs` seals `Quoter` so that exactly
the two dialects exported there, `Sh` and `Bash`, implement it. -/
inductive Dialect
  | sh
  | bash

/-- `Quoter::quote` dispatched over the sealed set. -/
def Dialect.quote : Dialect → List Nat → List Nat
  | .sh, s => shQuote s
  | .bash, s => bashQuote s

/-- `Quoter::quote_into` dispatched over the sealed set; the buffer is the
contents of the caller-provided `Vec<u8>` and the result its contents
after the call. -/
def Dialect.quoteInto : Dialect → List Nat → List Nat → List Nat
  | .sh, s, out => shQuoteInto s out
  | .bash, s, out => bashQuoteInto s out

/-- A Rust `Vec<u8>`, reduced to its byte contents. -/
structure VecU8 where
  data : List Nat

/-- A Rust `str`/`String` payload: its UTF-8 byte contents, as exposed by
`as_bytes`.  Well-formedness of the encoding plays no role in the
conversions of `src/lib.rs`, which only move bytes. -/
structure RStr where
  utf8Bytes : List Nat

/-- A Rust `OsStr`/`OsString` on Unix: a plain byte sequence, as exposed
by `OsStrExt::as_bytes`. -/
structure ROsStr where
  osBytes : List Nat

/-- A Rust `Path`/`PathBuf` on Unix: wraps an `OsStr`, exposed by
`as_os_str`. -/
structure RPath where
  asOsStr : ROsStr

/-- A Rust fixed-size array `[u8; N]`: bytes together with the length it
is indexed by. -/
structure ByteArrayN (N : Nat) where
  data : List Nat
  len_eq : data.length = N

/-- `Quotable`, from `src/lib.rs`: a borrowed string of bytes that can be
quoted.  The `bytes` field is the single payload. -/
structure Quotable where
  bytes : List Nat

/-- `impl From for Quotable` of a byte slice (`src/lib.rs`). -/
def Quotable.ofSlice (source : List Nat) : Quotable := ⟨source⟩

/-- `impl From for Quotable` of a fixed-size byte array: takes the full
slice of the array (`src/lib.rs`). -/
def Quotable.ofArray {N : Nat} (source : ByteArrayN N) : Quotable :=
  Quotable.ofSlice source.data

/-- `impl From for Quotable` of a borrowed `Vec<u8>`: derefs to its slice
(`src/lib.rs`). -/
def Quotable.ofVec (source : VecU8) : Quotable := ⟨source.data⟩

/-- `impl From for Quotable` of `str` and `String`: goes through
`as_bytes` (`src/lib.rs`). -/
def Quotable.ofStr (source : RStr) : Quotable :=
  Quotable.ofSlice source.utf8Bytes

/-- `impl From for Quotable` of `OsStr` and `OsString` on Unix: goes
through `OsStrExt::as_bytes` (`src/lib.rs`). -/
def Quotable.ofOsStr (source : ROsStr) : Quotable :=
  Quotable.ofSlice source.osBytes

/-- `impl From for Quotable` of `Path` and `PathBuf` on Unix: goes through
`as_os_str` and then the `OsStr` conversion (`src/lib.rs`). -/
def Quotable.ofPath (source : RPath) : Quotable :=
  Quotable.ofOsStr source.asOsStr

/-- `QuoteExt::push_quoted` on `Vec<u8>` (`src/lib.rs`): calls
`Q::quote_into(s, self)`. -/
def vecPushQuoted (q : Dialect) (self : VecU8) (s : Quotable) : VecU8 :=
  ⟨q.quoteInto s.bytes self.data⟩

/-- `QuoteExt::push_quoted` on `String` (`src/lib.rs`): quotes to a fresh
vector, reinterprets the bytes as text without validation, and appends
with `push_str`. -/
def stringPushQuoted (q : Dialect) (self : RStr) (s : Quotable) : RStr :=
  ⟨self.utf8Bytes ++ q.quote s.bytes⟩

/-- `QuoteExt::push_quoted` on `OsString` on Unix (`src/lib.rs`): quotes
to a fresh vector and appends it via `OsStr::from_bytes` and `push`. -/
def osStringPushQuoted (q : Dialect) (self : ROsStr) (s : Quotable) : ROsStr :=
  ⟨self.osBytes ++ q.quote s.bytes⟩

/-- `QuoteRefExt::quoted` into `Vec<u8>` (`src/lib.rs`): `Q::quote(self)`. -/
def vecQuoted (q : Dialect) (s : Quotable) : VecU8 :=
  ⟨q.quote s.bytes⟩

/-- `QuoteRefExt::quoted` into `String` (`src/lib.rs`): quotes and wraps
the bytes with the unchecked UTF-8 reinterpretation. -/
def stringQuoted (q : Dialect) (s : Quotable) : RStr :=
  ⟨q.quote s.bytes⟩

/-- `QuoteRefExt::quoted` into `OsString` on Unix (`src/lib.rs`): quotes
and wraps the bytes with `OsString::from_vec`. -/
def osStringQuoted (q : Dialect) (s : Quotable) : ROsStr :=
  ⟨q.quote s.bytes⟩

/-! Helper lemmas. -/

theorem isBareSafe_iff (b : Nat) :
    isBareSafe b = true ↔
      ((0x41 ≤ b ∧ b ≤ 0x5a) ∨ (0x61 ≤ b ∧ b ≤ 0x7a) ∨ (0x30 ≤ b ∧ b ≤ 0x39) ∨
        b = 0x2d ∨ b = 0x5f ∨ b = 0x2e ∨ b = 0x2f ∨ b = 0x2c ∨ b = 0x3a ∨
        b = 0x40 ∨ b = 0x25 ∨ b = 0x2b ∨ b = 0x3d) := by
  simp [isBareSafe]

theorem mustEscape_iff (b : Nat) :
    mustEscape b = true ↔ (b < 0x20 ∨ b = 0x7f ∨ 0x80 ≤ b) := by
  simp [mustEscape]

theorem shMeta_eq_false (b : Nat)
    (h : ¬ (b = 0x00 ∨ b = 0x09 ∨ b = 0x0a ∨ b = 0x0d ∨ b = 0x20 ∨
      b = 0x22 ∨ b = 0x24 ∨ b = 0x26 ∨ b = 0x28 ∨ b = 0x29 ∨ b = 0x3b ∨
      b = 0x3c ∨ b = 0x3e ∨ b = 0x60 ∨ b = 0x7c)) : shMeta b = false := by
  simpa [shMeta] using h

/-- Properties of a bare-safe byte that the grammar models need: it is a
printable byte and is none of the bytes that any parser mode treats
specially. -/
theorem isBareSafe_props {b : Nat} (h : isBareSafe b = true) :
    0x25 ≤ b ∧ b ≤ 0x7a ∧ b ≠ 0x27 ∧ b ≠ 0x5c ∧ b ≠ 0x24 ∧
      shMeta b = false ∧ mustEscape b = false := by
  rw [isBareSafe_iff] at h
  refine ⟨by omega, by omega, by omega, by omega, by omega, ?_, ?_⟩
  · exact shMeta_eq_false b (by omega)
  · simp [mustEscape]; omega

theorem shEscapeInto_eq (s out : List Nat) :
    shEscapeInto s out = out ++ s.flatMap shEscapeByte := by
  induction s generalizing out with
  | nil => simp [shEscapeInto]
  | cons c rest ih => simp [shEscapeInto, ih]

theorem bashEscapeInto_eq (s out : List Nat) :
    bashEscapeInto s out = out ++ s.flatMap bashEscapeByte := by
  induction s generalizing out with
  | nil => simp [bashEscapeInto]
  | cons c rest ih => simp [bashEscapeInto, ih]

/-- The non-fast-path Sh output, written as wrap plus per-byte emission. -/
theorem shQuote_not_bare (s : List Nat) (h : ¬ (s ≠ [] ∧ s.all isBareSafe = true)) :
    shQuote s = 0x27 :: s.flatMap shEscapeByte ++ [0x27] := by
  rw [shQuote, shQuoteInto, if_neg h, shEscapeInto_eq]
  simp

/-- A run of bare-safe bytes expands to itself outside any quoting. -/
theorem shExpand_top_bare (s : List Nat) (h : s.all isBareSafe = true) :
    shExpand .top s = some s := by
  induction s with
  | nil => rfl
  | cons c r ih =>
    simp only [List.all_cons, Bool.and_eq_true] at h
    obtain ⟨h1, h2, h3, h4, h5, h6, h7⟩ := isBareSafe_props h.1
    simp [shExpand, h3, h4, h6, ih h.2]

/-- Expanding the single-quote body produced by the Sh scan: the scanned
bytes come back verbatim, and expansion continues outside quotes after
the closing quote. -/
theorem shExpand_single_body (s rest : List Nat) :
    shExpand .single (s.flatMap shEscapeByte ++ (0x27 :: rest)) =
      (shExpand .top rest).map (fun t => s ++ t) := by
  induction s with
  | nil =>
    simp [shExpand]
  | cons c r ih =>
    by_cases hc : c = 0x27
    · subst hc
      simp only [List.flatMap_cons, shEscapeByte, if_pos rfl, List.append_assoc,
        List.cons_append, List.nil_append]
      simp [shExpand, ih]
      cases shExpand ShMode.top rest <;> simp
    · simp only [List.flatMap_cons, shEscapeByte, if_neg hc, List.append_assoc,
        List.cons_append, List.nil_append]
      simp [shExpand, hc, ih]
      cases shExpand ShMode.top rest <;> simp

/-- Round trip for the Sh quoter under the POSIX grammar model. -/
theorem shExpand_shQuote (s : List Nat) : shExpand .top (shQuote s) = some s := by
  by_cases hfast : s ≠ [] ∧ s.all isBareSafe = true
  · rw [shQuote, shQuoteInto, if_pos hfast, List.nil_append]
    exact shExpand_top_bare s hfast.2
  · rw [shQuote_not_bare s hfast]
    have hbody := shExpand_single_body s []
    rw [show (0x27 :: s.flatMap shEscapeByte) ++ [0x27] =
      0x27 :: (s.flatMap shEscapeByte ++ (0x27 :: [])) by simp]
    simp [shExpand, hbody]

/-- The Bash single-quote branch output, written as wrap plus per-byte
emission. -/
theorem bashQuote_single (s : List Nat) (h : ¬ (s ≠ [] ∧ s.all isBareSafe = true))
    (hesc : s.any mustEscape = false) :
    bashQuote s = 0x27 :: s.flatMap shEscapeByte ++ [0x27] := by
  rw [bashQuote, bashQuoteInto, if_neg h, if_neg (by simp [hesc]), shEscapeInto_eq]
  simp

/-- The Bash escape-quote branch output, written as prefix plus per-byte
emission plus the terminating quote. -/
theorem bashQuote_escape (s : List Nat) (h : ¬ (s ≠ [] ∧ s.all isBareSafe = true))
    (hesc : s.any mustEscape = true) :
    bashQuote s = 0x24 :: 0x27 :: s.flatMap bashEscapeByte ++ [0x27] := by
  rw [bashQuote, bashQuoteInto, if_neg h, if_pos hesc, bashEscapeInto_eq]
  simp

/-- A run of bare-safe bytes expands to itself under the extended grammar. -/
theorem bashExpand_top_bare (s : List Nat) (h : s.all isBareSafe = true) :
    bashExpand .top s = some s := by
  induction s with
  | nil => rfl
  | cons c r ih =>
    simp only [List.all_cons, Bool.and_eq_true] at h
    obtain ⟨h1, h2, h3, h4, h5, h6, h7⟩ := isBareSafe_props h.1
    simp [bashExpand, h3, h4, h5, h6, ih h.2]

/-- Expanding the single-quote body produced by the scan, under the
extended grammar. -/
theorem bashExpand_single_body (s rest : List Nat) :
    bashExpand .single (s.flatMap shEscapeByte ++ (0x27 :: rest)) =
      (bashExpand .top rest).map (fun t => s ++ t) := by
  induction s with
  | nil =>
    simp [bashExpand]
  | cons c r ih =>
    by_cases hc : c = 0x27
    · subst hc
      simp only [List.flatMap_cons, shEscapeByte, if_pos rfl, List.append_assoc,
        List.cons_append, List.nil_append]
      simp [bashExpand, ih]
      cases bashExpand BashMode.top rest <;> simp
    · simp only [List.flatMap_cons, shEscapeByte, if_neg hc, List.append_assoc,
        List.cons_append, List.nil_append]
      simp [bashExpand, hc, ih]
      cases bashExpand BashMode.top rest <;> simp

/-- The hexadecimal digit emitted for a value below 16 is a hexadecimal
digit character denoting that value. -/
theorem hexDigit_props {n : Nat} (h : n < 16) :
    isHexDigitByte (hexDigit n) = true ∧ hexVal (hexDigit n) = n := by
  unfold hexDigit isHexDigitByte hexVal
  split_ifs <;> simp_all <;> omega

/-- Expanding the emission of one byte inside the escape-quote construct
recovers exactly that byte. -/
theorem bashExpand_ansi_escByte (c : Nat) (hc : c < 256) (r : List Nat) :
    bashExpand .ansi (bashEscapeByte c ++ r) =
      (bashExpand .ansi r).map (fun t => c :: t) := by
  unfold bashEscapeByte
  rcases hm : bashMnemonic c with _ | m
  · by_cases hp : 0x20 ≤ c ∧ c ≤ 0x7e
    · rw [if_pos hp]
      have hc27 : c ≠ 0x27 := by
        intro h; rw [h] at hm; simp [bashMnemonic] at hm
      have hc5c : c ≠ 0x5c := by
        intro h; rw [h] at hm; simp [bashMnemonic] at hm
      simp [bashExpand, hc27, hc5c]
    · rw [if_neg hp]
      have hhi : c / 16 < 16 := by omega
      have hlo : c % 16 < 16 := by omega
      obtain ⟨hd1, hv1⟩ := hexDigit_props hhi
      obtain ⟨hd2, hv2⟩ := hexDigit_props hlo
      simp [bashExpand, hd1, hd2, hv1, hv2]
      have : 16 * (c / 16) + c % 16 = c := by omega
      rw [this]
  · have hcm : (c = 0x07 ∧ m = 0x61) ∨ (c = 0x08 ∧ m = 0x62) ∨ (c = 0x09 ∧ m = 0x74) ∨
        (c = 0x0a ∧ m = 0x6e) ∨ (c = 0x0b ∧ m = 0x76) ∨ (c = 0x0c ∧ m = 0x66) ∨
        (c = 0x0d ∧ m = 0x72) ∨ (c = 0x5c ∧ m = 0x5c) ∨ (c = 0x27 ∧ m = 0x27) := by
      unfold bashMnemonic at hm
      split_ifs at hm <;> simp_all
    rcases hcm with ⟨hc', hm'⟩ | ⟨hc', hm'⟩ | ⟨hc', hm'⟩ | ⟨hc', hm'⟩ | ⟨hc', hm'⟩ |
      ⟨hc', hm'⟩ | ⟨hc', hm'⟩ | ⟨hc', hm'⟩ | ⟨hc', hm'⟩ <;>
        subst hc' <;> subst hm' <;> simp [bashExpand, bashUnMnemonic]

/-- Expanding the escape-quote body produced by the scan: the scanned
bytes come back verbatim, and expansion continues outside quotes after
the terminating quote. -/
theorem bashExpand_ansi_body (s rest : List Nat) (hs : ∀ x ∈ s, x < 256) :
    bashExpand .ansi (s.flatMap bashEscapeByte ++ (0x27 :: rest)) =
      (bashExpand .top rest).map (fun t => s ++ t) := by
  induction s with
  | nil => simp [bashExpand]
  | cons c r ih =>
    simp only [List.flatMap_cons, List.append_assoc]
    rw [bashExpand_ansi_escByte c (hs c (by simp)) _]
    rw [ih (fun x hx => hs x (by simp [hx]))]
    cases bashExpand BashMode.top rest <;> simp

/-- Round trip for the Bash quoter under the extended grammar model. -/
theorem bashExpand_bashQuote (s : List Nat) (hs : ∀ x ∈ s, x < 256) :
    bashExpand .top (bashQuote s) = some s := by
  by_cases hfast : s ≠ [] ∧ s.all isBareSafe = true
  · rw [bashQuote, bashQuoteInto, if_pos hfast, List.nil_append]
    exact bashExpand_top_bare s hfast.2
  · rcases hesc : s.any mustEscape with _ | _
    · rw [bashQuote_single s hfast hesc]
      have hbody := bashExpand_single_body s []
      rw [show (0x27 :: s.flatMap shEscapeByte) ++ [0x27] =
        0x27 :: (s.flatMap shEscapeByte ++ (0x27 :: [])) by simp]
      simp [bashExpand, hbody]
    · rw [bashQuote_escape s hfast hesc]
      have hbody := bashExpand_ansi_body s [] hs
      rw [show (0x24 :: 0x27 :: s.flatMap bashEscapeByte) ++ [0x27] =
        0x24 :: 0x27 :: (s.flatMap bashEscapeByte ++ (0x27 :: [])) by simp]
      simp [bashExpand, hbody]

/-- Every byte of the Sh output is a quoting byte or a byte of the input. -/
theorem shQuote_mem (s : List Nat) :
    ∀ b ∈ shQuote s, b = 0x27 ∨ b = 0x5c ∨ b ∈ s := by
  intro b hb
  by_cases hfast : s ≠ [] ∧ s.all isBareSafe = true
  · rw [shQuote, shQuoteInto, if_pos hfast, List.nil_append] at hb
    exact Or.inr (Or.inr hb)
  · rw [shQuote_not_bare s hfast] at hb
    simp only [List.cons_append, List.mem_cons, List.mem_append, List.mem_flatMap,
      List.mem_singleton, List.not_mem_nil, or_false] at hb
    rcases hb with h | ⟨c, hc, hbc⟩ | h
    · exact Or.inl h
    · by_cases hc27 : c = 0x27
      · subst hc27
        simp [shEscapeByte] at hbc
        tauto
      · simp [shEscapeByte, hc27] at hbc
        subst hbc
        exact Or.inr (Or.inr hc)
    · exact Or.inl h

/-- The mnemonic escape letters are printable. -/
theorem bashMnemonic_printable {c m : Nat} (h : bashMnemonic c = some m) :
    0x20 ≤ m ∧ m ≤ 0x7e := by
  unfold bashMnemonic at h
  split_ifs at h <;> simp_all <;> omega

/-- The hexadecimal digit characters are printable. -/
theorem hexDigit_range {n : Nat} (h : n < 16) :
    0x30 ≤ hexDigit n ∧ hexDigit n ≤ 0x46 := by
  unfold hexDigit
  split_ifs <;> omega

/-- Every byte emitted inside the escape-quote construct is printable. -/
theorem bashEscapeByte_printable {c : Nat} (hc : c < 256) :
    ∀ b ∈ bashEscapeByte c, 0x20 ≤ b ∧ b ≤ 0x7e := by
  intro b hb
  unfold bashEscapeByte at hb
  rcases hm : bashMnemonic c with _ | m <;> rw [hm] at hb
  · by_cases hp : 0x20 ≤ c ∧ c ≤ 0x7e
    · rw [if_pos hp] at hb
      simp at hb
      omega
    · rw [if_neg hp] at hb
      have hhi := hexDigit_range (show c / 16 < 16 by omega)
      have hlo := hexDigit_range (show c % 16 < 16 by omega)
      simp at hb
      rcases hb with h | h | h | h <;> subst h <;> omega
  · have := bashMnemonic_printable hm
    simp at hb
    rcases hb with h | h <;> subst h <;> omega

/-- Every byte of the Bash output is printable ASCII. -/
theorem bashQuote_printable (s : List Nat) (hs : ∀ x ∈ s, x < 256) :
    ∀ b ∈ bashQuote s, 0x20 ≤ b ∧ b ≤ 0x7e := by
  intro b hb
  by_cases hfast : s ≠ [] ∧ s.all isBareSafe = true
  · rw [bashQuote, bashQuoteInto, if_pos hfast, List.nil_append] at hb
    have := isBareSafe_props (List.all_eq_true.mp hfast.2 b hb)
    omega
  · rcases hesc : s.any mustEscape with _ | _
    · rw [bashQuote_single s hfast hesc] at hb
      have hnesc : ∀ x ∈ s, mustEscape x = false := by
        intro x hx
        have := List.any_eq_false.mp (by simpa using hesc) x hx
        simpa using this
      simp only [List.cons_append, List.mem_cons, List.mem_append, List.mem_flatMap,
        List.mem_singleton, List.not_mem_nil, or_false] at hb
      rcases hb with h | ⟨c, hc, hbc⟩ | h
      · omega
      · have hcm := hnesc c hc
        rw [mustEscape] at hcm
        simp at hcm
        by_cases hc27 : c = 0x27
        · subst hc27
          simp [shEscapeByte] at hbc
          rcases hbc with h | h | h | h <;> omega
        · simp [shEscapeByte, hc27] at hbc
          omega
      · omega
    · rw [bashQuote_escape s hfast hesc] at hb
      simp only [List.cons_append, List.mem_cons, List.mem_append, List.mem_flatMap,
        List.mem_singleton, List.not_mem_nil, or_false] at hb
      rcases hb with h | h | ⟨c, hc, hbc⟩ | h
      · omega
      · omega
      · exact bashEscapeByte_printable (hs c hc) b hbc
      · omega

/-- Appending into a buffer only ever extends it with the fresh output. -/
theorem shQuoteInto_append (s out : List Nat) :
    shQuoteInto s out = out ++ shQuote s := by
  rw [shQuote]
  by_cases h : s ≠ [] ∧ s.all isBareSafe = true
  · rw [shQuoteInto, shQuoteInto, if_pos h, if_pos h, List.nil_append]
  · rw [shQuoteInto, shQuoteInto, if_neg h, if_neg h, shEscapeInto_eq, shEscapeInto_eq]
    simp

/-- Appending into a buffer only ever extends it with the fresh output. -/
theorem bashQuoteInto_append (s out : List Nat) :
    bashQuoteInto s out = out ++ bashQuote s := by
  rw [bashQuote]
  by_cases h : s ≠ [] ∧ s.all isBareSafe = true
  · rw [bashQuoteInto, bashQuoteInto, if_pos h, if_pos h, List.nil_append]
  · rcases hesc : s.any mustEscape with _ | _ <;>
      rw [bashQuoteInto, bashQuoteInto, if_neg h, if_neg h, hesc] <;>
      simp only [Bool.false_eq_true, if_false, if_true, bashEscapeInto_eq, shEscapeInto_eq] <;>
      simp

/-- The dispatched form of the frame property over the sealed quoter set. -/
theorem Dialect.quoteInto_append (q : Dialect) (s out : List Nat) :
    q.quoteInto s out = out ++ q.quote s := by
  cases q
  · exact shQuoteInto_append s out
  · exact bashQuoteInto_append s out

/-! Claims. -/

/-- C1: for every input byte slice and each supported dialect, tokenizing
and quote-expanding the quoted bytes under the dialect's grammar model
yields exactly the input, byte for byte, as a single word — including
for the empty slice and slices holding NUL, the quote byte, or bytes
that are not valid UTF-8. -/
theorem C1_round_trip (s : List Nat) (hs : ∀ x ∈ s, x < 256) :
    shExpand .top (shQuote s) = some s ∧ bashExpand .top (bashQuote s) = some s :=
  ⟨shExpand_shQuote s, bashExpand_bashQuote s hs⟩

theorem C1_round_trip_witness :
    (∀ x ∈ ([0x00, 0x27, 0x80, 0x41] : List Nat), x < 256) ∧
      shExpand .top (shQuote [0x00, 0x27, 0x80, 0x41]) = some [0x00, 0x27, 0x80, 0x41] ∧
      bashExpand .top (bashQuote [0x00, 0x27, 0x80, 0x41]) = some [0x00, 0x27, 0x80, 0x41] :=
  ⟨by decide, (C1_round_trip [0x00, 0x27, 0x80, 0x41] (by decide)).1,
    (C1_round_trip [0x00, 0x27, 0x80, 0x41] (by decide)).2⟩

/-- C2 as stated is false: the Sh quoter emits the byte 0x80 verbatim
inside single quotes, so its output at input [0x80] holds a byte at or
above 0x80. -/
theorem C2_counterexample : ¬ (∀ b ∈ shQuote [0x80], b < 0x80) := by decide

/-- C2 amended: every byte of the Bash output is printable ASCII, below
0x80, for every byte input; the Sh output adds only the ASCII quoting
bytes to bytes of the input, so it is ASCII-only exactly on ASCII
inputs. -/
theorem C2_ascii_safety (s : List Nat) (hs : ∀ x ∈ s, x < 256) :
    (∀ b ∈ bashQuote s, 0x20 ≤ b ∧ b < 0x80) ∧
    (∀ b ∈ shQuote s, b = 0x27 ∨ b = 0x5c ∨ b ∈ s) ∧
    ((∀ x ∈ s, x < 0x80) → ∀ b ∈ shQuote s, b < 0x80) := by
  refine ⟨fun b hb => ?_, shQuote_mem s, fun hascii b hb => ?_⟩
  · have := bashQuote_printable s hs b hb
    omega
  · rcases shQuote_mem s b hb with h | h | h
    · omega
    · omega
    · exact hascii b h

theorem C2_ascii_safety_witness :
    (∀ x ∈ ([0x07, 0xff] : List Nat), x < 256) ∧
      (∀ b ∈ bashQuote [0x07, 0xff], 0x20 ≤ b ∧ b < 0x80) :=
  ⟨by decide, (C2_ascii_safety [0x07, 0xff] (by decide)).1⟩

/-- C3: for every non-empty input that is not entirely bare-safe, the Sh
quoter wraps the output in single quotes, emits each single-quote byte
as close-quote, backslash, quote, reopen-quote, and every other byte
verbatim. -/
theorem C3_sh_single_quote (s : List Nat) (hne : s ≠ [])
    (hnb : ¬ s.all isBareSafe = true) :
    shQuote s =
      0x27 :: s.flatMap (fun c => if c = 0x27 then [0x27, 0x5c, 0x27, 0x27] else [c])
        ++ [0x27] := by
  rw [shQuote_not_bare s (by tauto)]
  rfl

theorem C3_sh_single_quote_witness :
    shQuote [0x69, 0x74, 0x27, 0x73] =
        0x27 :: [0x69, 0x74, 0x27, 0x73].flatMap
          (fun c => if c = 0x27 then [0x27, 0x5c, 0x27, 0x27] else [c]) ++ [0x27] ∧
      shQuote [0x69, 0x74, 0x27, 0x73] =
        [0x27, 0x69, 0x74, 0x27, 0x5c, 0x27, 0x27, 0x73, 0x27] :=
  ⟨C3_sh_single_quote [0x69, 0x74, 0x27, 0x73] (by decide) (by decide), by decide⟩

/-- C4: for every non-empty input that is not entirely bare-safe, the
Bash quoter agrees with the Sh single-quote strategy exactly when no
byte is in the must/prefer-escape class; with at least one such byte it
instead emits the escape-quoted form, opened by the dollar-quote prefix
and closed by the terminating quote. -/
theorem C4_bash_strategy (s : List Nat) (hne : s ≠ [])
    (hnb : ¬ s.all isBareSafe = true) :
    (s.any mustEscape = false → bashQuote s = shQuote s) ∧
    (s.any mustEscape = true →
      bashQuote s = 0x24 :: 0x27 :: s.flatMap bashEscapeByte ++ [0x27] ∧
      bashQuote s ≠ shQuote s) := by
  constructor
  · intro h
    rw [bashQuote_single s (by tauto) h, shQuote_not_bare s (by tauto)]
  · intro h
    refine ⟨bashQuote_escape s (by tauto) h, ?_⟩
    rw [bashQuote_escape s (by tauto) h, shQuote_not_bare s (by tauto)]
    intro hEq
    have := congrArg List.head? hEq
    simp at this

theorem C4_bash_strategy_witness :
    bashQuote [0x20] = shQuote [0x20] ∧
      bashQuote [0x07] = 0x24 :: 0x27 :: [0x07].flatMap bashEscapeByte ++ [0x27] ∧
      bashQuote [0x07] ≠ shQuote [0x07] :=
  ⟨(C4_bash_strategy [0x20] (by decide) (by decide)).1 (by decide),
    ((C4_bash_strategy [0x07] (by decide) (by decide)).2 (by decide)).1,
    ((C4_bash_strategy [0x07] (by decide) (by decide)).2 (by decide)).2⟩

/-- C5: inside the escape-quoted form, the nine mnemonic bytes are each
emitted as their two-character backslash-mnemonic escape; every other
byte outside the printable range — in particular every byte at or above
0x80 — becomes a fixed-width escape of backslash, the letter x and
exactly two hexadecimal digits denoting the byte value; printable bytes
without a mnemonic are emitted verbatim; and the input [0x07, 0x41]
quotes to the bell mnemonic escape followed by the literal letter. -/
theorem C5_bash_escape_emission :
    bashEscapeByte 0x0a = [0x5c, 0x6e] ∧ bashEscapeByte 0x09 = [0x5c, 0x74] ∧
    bashEscapeByte 0x0d = [0x5c, 0x72] ∧ bashEscapeByte 0x5c = [0x5c, 0x5c] ∧
    bashEscapeByte 0x27 = [0x5c, 0x27] ∧ bashEscapeByte 0x07 = [0x5c, 0x61] ∧
    bashEscapeByte 0x08 = [0x5c, 0x62] ∧ bashEscapeByte 0x0c = [0x5c, 0x66] ∧
    bashEscapeByte 0x0b = [0x5c, 0x76] ∧
    (∀ c : Nat, c < 256 → bashMnemonic c = none → ¬ (0x20 ≤ c ∧ c ≤ 0x7e) →
      ∃ d1 d2, bashEscapeByte c = [0x5c, 0x78, d1, d2] ∧
        isHexDigitByte d1 = true ∧ isHexDigitByte d2 = true ∧
        16 * hexVal d1 + hexVal d2 = c) ∧
    (∀ c : Nat, bashMnemonic c = none → 0x20 ≤ c → c ≤ 0x7e →
      bashEscapeByte c = [c]) ∧
    bashQuote [0x07, 0x41] = [0x24, 0x27, 0x5c, 0x61, 0x41, 0x27] := by
  refine ⟨by decide, by decide, by decide, by decide, by decide, by decide, by decide,
    by decide, by decide, ?_, ?_, by decide⟩
  · intro c hc hm hp
    refine ⟨hexDigit (c / 16), hexDigit (c % 16), ?_, ?_, ?_, ?_⟩
    · unfold bashEscapeByte
      rw [hm, if_neg hp]
    · exact (hexDigit_props (show c / 16 < 16 by omega)).1
    · exact (hexDigit_props (show c % 16 < 16 by omega)).1
    · rw [(hexDigit_props (show c / 16 < 16 by omega)).2,
        (hexDigit_props (show c % 16 < 16 by omega)).2]
      omega
  · intro c hm h1 h2
    unfold bashEscapeByte
    rw [hm, if_pos ⟨h1, h2⟩]

theorem C5_bash_escape_emission_witness :
    (∃ d1 d2, bashEscapeByte 0xff = [0x5c, 0x78, d1, d2] ∧
        isHexDigitByte d1 = true ∧ isHexDigitByte d2 = true ∧
        16 * hexVal d1 + hexVal d2 = 0xff) ∧
      bashEscapeByte 0x41 = [0x41] :=
  ⟨C5_bash_escape_emission.2.2.2.2.2.2.2.2.2.1 0xff (by decide) (by decide) (by decide),
    C5_bash_escape_emission.2.2.2.2.2.2.2.2.2.2.1 0x41 (by decide) (by decide) (by decide)⟩

/-- C6: a non-empty input of bare-safe bytes is returned unchanged by
both quoters, and in every other case the output is quoted: it opens
with a single quote, or, for Bash, with a single quote or the
dollar-quote prefix. -/
theorem C6_bare_fast_path (s : List Nat) :
    (s ≠ [] → s.all isBareSafe = true → shQuote s = s ∧ bashQuote s = s) ∧
    (¬ (s ≠ [] ∧ s.all isBareSafe = true) →
      (shQuote s).head? = some 0x27 ∧
      ((bashQuote s).head? = some 0x27 ∨ (bashQuote s).head? = some 0x24)) := by
  constructor
  · intro h1 h2
    constructor
    · rw [shQuote, shQuoteInto, if_pos ⟨h1, h2⟩, List.nil_append]
    · rw [bashQuote, bashQuoteInto, if_pos ⟨h1, h2⟩, List.nil_append]
  · intro h
    constructor
    · rw [shQuote_not_bare s h]
      rfl
    · rcases hesc : s.any mustEscape with _ | _
      · exact Or.inl (by rw [bashQuote_single s h hesc]; rfl)
      · exact Or.inr (by rw [bashQuote_escape s h hesc]; rfl)

theorem C6_bare_fast_path_witness :
    (shQuote [0x68, 0x69] = [0x68, 0x69] ∧ bashQuote [0x68, 0x69] = [0x68, 0x69]) ∧
      (shQuote [0xff]).head? = some 0x27 :=
  ⟨(C6_bare_fast_path [0x68, 0x69]).1 (by decide) (by decide),
    ((C6_bare_fast_path [0xff]).2 (by decide)).1⟩

/-- C7: quoting the empty slice produces exactly the two-byte empty
single-quote pair in both dialects. -/
theorem C7_empty_input : shQuote [] = [0x27, 0x27] ∧ bashQuote [] = [0x27, 0x27] := by
  decide

/-- C8: for every input, dialect and initial buffer contents, the append
form leaves the existing contents in place and appends exactly the
fresh-output bytes, and the fresh output is the append form run on an
empty buffer. -/
theorem C8_quote_into_frame (q : Dialect) (s out : List Nat) :
    q.quoteInto s out = out ++ q.quote s ∧ q.quote s = q.quoteInto s [] := by
  refine ⟨Dialect.quoteInto_append q s out, ?_⟩
  rw [Dialect.quoteInto_append q s [], List.nil_append]

/-- C9: every conversion into Quotable is lossless: the bytes field of
the result is exactly the underlying byte sequence of the source
representation. -/
theorem C9_quotable_lossless :
    (∀ b : List Nat, (Quotable.ofSlice b).bytes = b) ∧
    (∀ (N : Nat) (a : ByteArrayN N), (Quotable.ofArray a).bytes = a.data) ∧
    (∀ v : VecU8, (Quotable.ofVec v).bytes = v.data) ∧
    (∀ st : RStr, (Quotable.ofStr st).bytes = st.utf8Bytes) ∧
    (∀ o : ROsStr, (Quotable.ofOsStr o).bytes = o.osBytes) ∧
    (∀ p : RPath, (Quotable.ofPath p).bytes = p.asOsStr.osBytes) :=
  ⟨fun _ => rfl, fun _ _ => rfl, fun _ => rfl, fun _ => rfl, fun _ => rfl, fun _ => rfl⟩

/-- C10: all owned-output adapters agree byte for byte: quoting into a
byte vector, a text string or an OS string carries exactly the quote
output, and both push forms append exactly that byte sequence to the
target. -/
theorem C10_adapters_agree (q : Dialect) (s : Quotable) (buf : List Nat) :
    (vecQuoted q s).data = q.quote s.bytes ∧
    (stringQuoted q s).utf8Bytes = q.quote s.bytes ∧
    (osStringQuoted q s).osBytes = q.quote s.bytes ∧
    (vecPushQuoted q ⟨buf⟩ s).data = buf ++ q.quote s.bytes ∧
    (stringPushQuoted q ⟨buf⟩ s).utf8Bytes = buf ++ q.quote s.bytes ∧
    (osStringPushQuoted q ⟨buf⟩ s).osBytes = buf ++ q.quote s.bytes :=
  ⟨rfl, rfl, rfl, Dialect.quoteInto_append q s.bytes buf, rfl, rfl⟩

end ShellQuote
